import Mathlib

/-!
Verification of the news ingestion/aggregation pipeline of the
News-Enhancer backend and of the frontend feed renderer (`frontend/feed.js`).

The backend pipeline itself (`main.py`) is not part of the source tree we
were given; its behaviour is modelled from the specification (component
contracts in spec sections 3, 4 and 5) and from the repository's RSS design
README.  Frontend definitions are translated directly from
`frontend/feed.js`.
-/

namespace NewsEnhancer

/-- Modelled from the spec: `ScrapedContent` — full extracted text
(truncated to a fixed character cap) plus an optional primary image URL
(spec section 3).  The scraper code in `main.py` is missing from the tree. -/
structure ScrapedContent where
  content : String
  image : Option String
deriving DecidableEq, Repr

/-- Modelled from the spec: `EntrySummary` — the per-feed-item record the
Feed Fetcher produces (spec section 3).  `link` is the identity. -/
structure EntrySummary where
  title : String
  link : String
  source : String
  date : Option String
  summarySnippet : Option String
  image : Option String
deriving DecidableEq, Repr

/-- `Article`, the output unit: EntrySummary fields merged with
ScrapedContent when scraping succeeded, otherwise metadata alone with
content/image absent (spec section 3).  This shape is also exactly what
`frontend/feed.js` consumes. -/
structure Article where
  title : String
  link : String
  source : String
  date : Option String
  content : Option String
  image : Option String
deriving DecidableEq, Repr

/-! ## Article Scraper: content truncation (spec section 4.4, README "Content Limiting") -/

/-- The fixed content cap: 2000 characters (README performance note 5,
spec section 3). -/
def CONTENT_CAP : Nat := 2000

/-- Modelled from the spec: truncation of extracted text to the content cap,
measured in characters, never splitting a character (spec section 4.4); the
scraper in `main.py` is missing from the tree.  A string is a list of
characters here, so taking a character prefix is the faithful model of
`text[:2000]`. -/
def truncateContent (s : String) : String :=
  ⟨s.data.take CONTENT_CAP⟩

/-- Modelled from the spec: the successful-scrape record, built from the
extracted text and optional primary image (spec section 4.4). -/
def mkScraped (text : String) (img : Option String) : ScrapedContent :=
  { content := truncateContent text, image := img }

/-! ## Source Directory (spec section 4.1, README "Supported Interests") -/

/-- Modelled from the spec: the fixed category table of the Source
Directory, keyed by lowercase interest label (README "Supported
Interests"); the concrete feed URLs live in the missing `main.py`, so each
category's ordered source list is represented by symbolic descriptors. -/
def RSS_FEEDS : List (String × List String) :=
  [ ("coding", ["coding-feed-0", "coding-feed-1"])
  , ("technology", ["technology-feed-0", "technology-feed-1"])
  , ("cloud architecture", ["cloud-architecture-feed-0"])
  , ("ai", ["ai-feed-0", "ai-feed-1"])
  , ("fitness", ["fitness-feed-0"])
  , ("health", ["health-feed-0"])
  , ("yoga", ["yoga-feed-0"])
  , ("meditation", ["meditation-feed-0"])
  , ("startup", ["startup-feed-0"])
  , ("business", ["business-feed-0"])
  , ("stock trading", ["stock-trading-feed-0"])
  , ("finance", ["finance-feed-0"])
  , ("cooking", ["cooking-feed-0"])
  , ("gaming", ["gaming-feed-0"])
  , ("travel", ["travel-feed-0"]) ]

/-- Modelled from the spec: the designated fallback source list
(general-news feeds) used for unrecognized labels (README "Fallback",
spec section 4.1). -/
def FALLBACK_FEEDS : List String :=
  ["general-news-feed-0", "general-news-feed-1"]

/-- Character-wise lowercasing (the meaning of `str.lower()` /
`String.toLower`, written over the character list so it is
kernel-computable). -/
def toLowerStr (s : String) : String :=
  ⟨s.data.map Char.toLower⟩

/-- Character-wise uppercasing (the meaning of `toUpperCase()` in
`frontend/feed.js`, written over the character list so it is
kernel-computable). -/
def toUpperStr (s : String) : String :=
  ⟨s.data.map Char.toUpper⟩

/-- Association-list lookup over the category table. -/
def lookupTable (table : List (String × List String)) (key : String) :
    Option (List String) :=
  match table with
  | [] => none
  | (k, v) :: rest => if k = key then some v else lookupTable rest key

/-- Modelled from the spec: `resolve(interest)` — case-insensitive exact
match against the fixed category table, falling back to the general-news
list on a miss; total, no side effects (spec section 4.1). -/
def resolve (interest : String) : List String :=
  match lookupTable RSS_FEEDS (toLowerStr interest) with
  | some feeds => feeds
  | none => FALLBACK_FEEDS

/-! ## Helper lemmas -/

theorem lookupTable_mem {table : List (String × List String)} {key : String}
    {v : List String} (h : lookupTable table key = some v) :
    ∃ k, (k, v) ∈ table := by
  induction table with
  | nil => simp [lookupTable] at h
  | cons p rest ih =>
    obtain ⟨k, w⟩ := p
    by_cases hk : k = key
    · subst hk
      simp [lookupTable] at h
      exact ⟨k, by simp [h]⟩
    · simp [lookupTable, hk] at h
      obtain ⟨k', hk'⟩ := ih h
      exact ⟨k', List.mem_cons_of_mem _ hk'⟩

theorem RSS_FEEDS_values_nonempty :
    ∀ p ∈ RSS_FEEDS, p.2 ≠ ([] : List String) := by decide

/-- Claim C8: the Source Directory's `resolve` is total and pure; a label
is matched case-insensitively against the category table (labels with the
same lowercasing resolve identically); a table hit returns that category's
list, a miss returns the designated general-news fallback; the result is
never empty. -/
theorem resolve_spec (interest other : String) :
    resolve interest ≠ [] ∧
    (toLowerStr interest = toLowerStr other → resolve interest = resolve other) ∧
    (∀ feeds, lookupTable RSS_FEEDS (toLowerStr interest) = some feeds →
      resolve interest = feeds) ∧
    (lookupTable RSS_FEEDS (toLowerStr interest) = none →
      resolve interest = FALLBACK_FEEDS) := by
  refine ⟨?_, ?_, ?_, ?_⟩
  · unfold resolve
    cases h : lookupTable RSS_FEEDS (toLowerStr interest) with
    | none => simp [FALLBACK_FEEDS]
    | some feeds =>
      obtain ⟨k, hk⟩ := lookupTable_mem h
      simpa using RSS_FEEDS_values_nonempty (k, feeds) hk
  · intro h
    unfold resolve
    rw [h]
  · intro feeds h
    unfold resolve
    rw [h]
  · intro h
    unfold resolve
    rw [h]

theorem resolve_spec_witness :
    resolve "CODING" = resolve "coding" ∧
    resolve "quantum_xyz" = FALLBACK_FEEDS ∧
    resolve "coding" = ["coding-feed-0", "coding-feed-1"] := by
  refine ⟨?_, ?_, ?_⟩
  · exact (resolve_spec "CODING" "coding").2.1 (by decide)
  · exact (resolve_spec "quantum_xyz" "quantum_xyz").2.2.2 (by decide)
  · exact (resolve_spec "coding" "coding").2.2.1
      ["coding-feed-0", "coding-feed-1"] (by decide)

theorem resolve_distinct_case : resolve "Coding" ≠ resolve "travel" := by decide

/-! ## Interest pipeline: dedup, article assembly, orchestrator
(spec sections 4.4 and 4.5) -/

/-- Modelled from the spec: per-interest deduplication of fetched entries by
link, last occurrence wins, relative order of surviving entries preserved
(spec sections 4.5 and 5); the orchestrator in `main.py` is missing from the
tree.  An entry is kept exactly when no later entry has the same link. -/
def dedupByLink : List EntrySummary → List EntrySummary
  | [] => []
  | e :: rest =>
    if rest.any (fun x => x.link == e.link) then dedupByLink rest
    else e :: dedupByLink rest

/-- Modelled from the spec: assembly of an output `Article` — EntrySummary
fields merged with ScrapedContent on scrape success, metadata alone with
content/image absent on failure (spec section 3). -/
def buildArticle (e : EntrySummary) (sc : Option ScrapedContent) : Article :=
  { title := e.title
  , link := e.link
  , source := e.source
  , date := e.date
  , content := sc.map ScrapedContent.content
  , image := sc.bind ScrapedContent.image }

/-- Modelled from the spec: one interest branch of the orchestrator after
fetching — dedup the fetched entries, scrape each surviving entry (failure
is the `none` result and degrades that article only), and build the article
list preserving the deduplicated entry order (spec section 4.5). -/
def processInterest (entries : List EntrySummary)
    (scrapeFn : String → Option ScrapedContent) : List Article :=
  (dedupByLink entries).map (fun e => buildArticle e (scrapeFn e.link))

/-- Modelled from the spec: the orchestrator `run` — every interest of the
input list is processed, results are joined back in input interest order,
and a branch whose fetch yields nothing maps to the empty article list
(spec section 4.5).  `fetchFn` abstracts resolve-plus-fetch for one
interest; it returning `[]` models every source of that interest failing. -/
def runPipeline (interests : List String)
    (fetchFn : String → List EntrySummary)
    (scrapeFn : String → Option ScrapedContent) : List (String × List Article) :=
  interests.map (fun i => (i, processInterest (fetchFn i) scrapeFn))

/-! ## Dedup lemmas -/

theorem dedupByLink_sublist (es : List EntrySummary) :
    List.Sublist (dedupByLink es) es := by
  induction es with
  | nil => simp [dedupByLink]
  | cons e rest ih =>
    rw [dedupByLink]
    by_cases h : (rest.any (fun x => x.link == e.link)) = true
    · rw [if_pos h]
      exact ih.cons e
    · rw [if_neg h]
      exact ih.cons₂ e

theorem mem_of_mem_dedupByLink {es : List EntrySummary} {e : EntrySummary}
    (h : e ∈ dedupByLink es) : e ∈ es :=
  (dedupByLink_sublist es).subset h

theorem links_dedupByLink_nodup (es : List EntrySummary) :
    ((dedupByLink es).map EntrySummary.link).Nodup := by
  induction es with
  | nil => simp [dedupByLink]
  | cons e rest ih =>
    rw [dedupByLink]
    by_cases h : (rest.any (fun x => x.link == e.link)) = true
    · rw [if_pos h]
      exact ih
    · rw [if_neg h]
      rw [List.map_cons, List.nodup_cons]
      refine ⟨?_, ih⟩
      intro hmem
      obtain ⟨x, hx, hlink⟩ := List.mem_map.mp hmem
      have hx' : x ∈ rest := mem_of_mem_dedupByLink hx
      exact h (List.any_eq_true.mpr ⟨x, hx', by simp [hlink]⟩)

theorem mem_links_dedupByLink {es : List EntrySummary} {l : String} :
    l ∈ (dedupByLink es).map EntrySummary.link ↔ l ∈ es.map EntrySummary.link := by
  induction es with
  | nil => simp [dedupByLink]
  | cons e rest ih =>
    rw [dedupByLink]
    by_cases h : (rest.any (fun x => x.link == e.link)) = true
    · rw [if_pos h, List.map_cons, List.mem_cons, ih]
      constructor
      · exact Or.inr
      · rintro (rfl | hm)
        · obtain ⟨x, hx, hlink⟩ := List.any_eq_true.mp h
          exact List.mem_map.mpr ⟨x, hx, by simpa using hlink⟩
        · exact hm
    · rw [if_neg h, List.map_cons, List.map_cons, List.mem_cons, List.mem_cons, ih]

theorem dedupByLink_last {es : List EntrySummary} {e : EntrySummary}
    (he : e ∈ dedupByLink es) :
    (es.filter (fun x => x.link == e.link)).getLast? = some e := by
  induction es with
  | nil => simp [dedupByLink] at he
  | cons x rest ih =>
    rw [dedupByLink] at he
    by_cases h : (rest.any (fun y => y.link == x.link)) = true
    · rw [if_pos h] at he
      have hlast := ih he
      rw [List.filter_cons]
      by_cases hx : (x.link == e.link) = true
      · rw [if_pos hx]
        have hne : rest.filter (fun y => y.link == e.link) ≠ [] := by
          intro hnil
          rw [hnil] at hlast
          simp at hlast
        obtain ⟨y, ys, heq⟩ := List.exists_cons_of_ne_nil hne
        rw [heq] at hlast ⊢
        rwa [List.getLast?_cons_cons]
      · rwa [if_neg hx]
    · rw [if_neg h] at he
      rcases List.mem_cons.mp he with rfl | hr
      · have hee : (e.link == e.link) = true := by simp
        rw [List.filter_cons, if_pos hee]
        have hnil : rest.filter (fun y => y.link == e.link) = [] := by
          rw [List.filter_eq_nil_iff]
          intro y hy hcontra
          exact h (List.any_eq_true.mpr ⟨y, hy, hcontra⟩)
        rw [hnil]
        rfl
      · have hxe : ¬ (x.link == e.link) = true := by
          intro hcontra
          have he' : e ∈ rest := mem_of_mem_dedupByLink hr
          have hlinks : e.link = x.link := (beq_iff_eq.mp hcontra).symm
          exact h (List.any_eq_true.mpr ⟨e, he', beq_iff_eq.mpr hlinks⟩)
        rw [List.filter_cons, if_neg hxe]
        exact ih hr

theorem links_processInterest (entries : List EntrySummary)
    (scrapeFn : String → Option ScrapedContent) :
    (processInterest entries scrapeFn).map Article.link =
      (dedupByLink entries).map EntrySummary.link := by
  simp [processInterest, List.map_map, buildArticle, Function.comp]

/-- Claim C6: if an interest's fetched entry list contains the same link two
or more times, the output article list for that interest contains exactly one
article with that link, the surviving entry is the last occurrence of the
link in the fetched list, and the surviving entries keep their relative
order from the fetched list (the dedup result is a sublist). -/
theorem dedup_last_wins (entries : List EntrySummary)
    (scrapeFn : String → Option ScrapedContent) (l : String)
    (hdup : 2 ≤ (entries.map EntrySummary.link).count l) :
    ((processInterest entries scrapeFn).map Article.link).count l = 1 ∧
    (∀ e ∈ dedupByLink entries, e.link = l →
      (entries.filter (fun x => x.link == l)).getLast? = some e) ∧
    List.Sublist (dedupByLink entries) entries := by
  refine ⟨?_, ?_, dedupByLink_sublist entries⟩
  · rw [links_processInterest]
    have hm : l ∈ entries.map EntrySummary.link :=
      List.count_pos_iff.mp (by omega)
    exact List.count_eq_one_of_mem (links_dedupByLink_nodup entries)
      (mem_links_dedupByLink.mpr hm)
  · intro e he hl
    have := dedupByLink_last he
    rwa [hl] at this

/-! ## Sample data for concrete evaluations -/

/-- Sample entry with link "L" (earlier duplicate). -/
def entryA : EntrySummary :=
  { title := "A-title", link := "L", source := "srcA"
  , date := none, summarySnippet := none, image := none }

/-- Sample entry with link "M". -/
def entryB : EntrySummary :=
  { title := "B-title", link := "M", source := "srcB"
  , date := some "2024-01-01", summarySnippet := none, image := none }

/-- Sample entry with link "L" (later duplicate, should survive dedup). -/
def entryC : EntrySummary :=
  { title := "C-title", link := "L", source := "srcC"
  , date := none, summarySnippet := some "snippet", image := some "img-url" }

theorem dedup_last_wins_witness :
    2 ≤ (([entryA, entryB, entryC].map EntrySummary.link).count "L") ∧
    (((processInterest [entryA, entryB, entryC] (fun _ => none)).map
        Article.link).count "L" = 1 ∧
      (∀ e ∈ dedupByLink [entryA, entryB, entryC], e.link = "L" →
        ([entryA, entryB, entryC].filter
          (fun x => x.link == "L")).getLast? = some e) ∧
      List.Sublist (dedupByLink [entryA, entryB, entryC]) [entryA, entryB, entryC]) :=
  ⟨by decide, dedup_last_wins [entryA, entryB, entryC] (fun _ => none) "L" (by decide)⟩

/-! ## Claim C5: content truncation -/

/-- Claim C5: for scraped text longer than the 2000-character cap, the
stored content has length exactly the cap, measured in characters, and is a
character-level prefix of the original text — so no multi-byte character is
ever split (the truncation acts on the character sequence, not the bytes). -/
theorem truncate_spec (s : String) (h : CONTENT_CAP < s.length) :
    (truncateContent s).length = CONTENT_CAP ∧
    (truncateContent s).data = s.data.take CONTENT_CAP := by
  constructor
  · show (s.data.take CONTENT_CAP).length = CONTENT_CAP
    rw [List.length_take]
    have h' : CONTENT_CAP < s.data.length := h
    omega
  · rfl

theorem truncate_spec_witness :
    CONTENT_CAP < (String.mk (List.replicate 2001 'é')).length ∧
    (truncateContent (String.mk (List.replicate 2001 'é'))).length = CONTENT_CAP ∧
    (truncateContent (String.mk (List.replicate 2001 'é'))).data =
      (String.mk (List.replicate 2001 'é')).data.take CONTENT_CAP := by
  have h : CONTENT_CAP < (String.mk (List.replicate 2001 'é')).length := by
    show CONTENT_CAP < (List.replicate 2001 'é').length
    rw [List.length_replicate]
    decide
  exact ⟨h, (truncate_spec _ h).1, (truncate_spec _ h).2⟩

/-! ## Claim C7: scrape failure degrades gracefully -/

/-- Claim C7: a failed or timed-out scrape is an ordinary `none` result; the
article built for that entry keeps title, link and source, with content and
image absent; and the interest's output still contains one article per
surviving entry — a failure never blocks or drops siblings, and the call
still succeeds. -/
theorem scrape_failure_degrades (entries : List EntrySummary)
    (scrapeFn : String → Option ScrapedContent) (e : EntrySummary)
    (he : e ∈ dedupByLink entries) (hfail : scrapeFn e.link = none) :
    buildArticle e none ∈ processInterest entries scrapeFn ∧
    (buildArticle e none).title = e.title ∧
    (buildArticle e none).link = e.link ∧
    (buildArticle e none).source = e.source ∧
    (buildArticle e none).content = none ∧
    (buildArticle e none).image = none ∧
    (∀ x ∈ dedupByLink entries,
      buildArticle x (scrapeFn x.link) ∈ processInterest entries scrapeFn) ∧
    (processInterest entries scrapeFn).length = (dedupByLink entries).length := by
  refine ⟨?_, rfl, rfl, rfl, rfl, rfl, ?_, by simp [processInterest]⟩
  · exact List.mem_map.mpr ⟨e, he, by rw [hfail]⟩
  · intro x hx
    exact List.mem_map.mpr ⟨x, hx, rfl⟩

theorem scrape_failure_degrades_witness :
    entryC ∈ dedupByLink [entryA, entryB, entryC] ∧
    buildArticle entryC none ∈
      processInterest [entryA, entryB, entryC] (fun _ => none) ∧
    (buildArticle entryC none).content = none ∧
    (buildArticle entryC none).image = none ∧
    (processInterest [entryA, entryB, entryC] (fun _ => none)).length =
      (dedupByLink [entryA, entryB, entryC]).length := by
  have h := scrape_failure_degrades [entryA, entryB, entryC] (fun _ => none)
    entryC (by decide) rfl
  exact ⟨by decide, h.1, h.2.2.2.2.1, h.2.2.2.2.2.1, h.2.2.2.2.2.2.2⟩

/-! ## Claim C1: orchestrator result shape -/

/-- Claim C1: for every ordered interest list, the pipeline result's keys
are exactly the input interests in input order; with a duplicate-free input
each interest occurs exactly once as a key; and this shape is independent of
the fetch and scrape functions — an interest whose fetch yields nothing
(all its sources failed) is present and mapped to the empty article list,
never omitted and never an error. -/
theorem run_shape (interests : List String)
    (fetchFn : String → List EntrySummary)
    (scrapeFn : String → Option ScrapedContent) :
    ((runPipeline interests fetchFn scrapeFn).map Prod.fst = interests) ∧
    (interests.Nodup → ∀ i ∈ interests,
      ((runPipeline interests fetchFn scrapeFn).map Prod.fst).count i = 1) ∧
    (∀ i ∈ interests, fetchFn i = [] →
      (i, ([] : List Article)) ∈ runPipeline interests fetchFn scrapeFn) := by
  have hmap : (runPipeline interests fetchFn scrapeFn).map Prod.fst = interests := by
    unfold runPipeline
    rw [List.map_map]
    exact List.map_id interests
  refine ⟨hmap, ?_, ?_⟩
  · intro hnd i hi
    rw [hmap]
    exact List.count_eq_one_of_mem hnd hi
  · intro i hi hempty
    refine List.mem_map.mpr ⟨i, hi, ?_⟩
    rw [hempty]
    rfl

theorem run_shape_witness :
    (["coding", "unknown_xyz"] : List String).Nodup ∧
    ((runPipeline ["coding", "unknown_xyz"] (fun _ => []) (fun _ => none)).map
      Prod.fst = ["coding", "unknown_xyz"]) ∧
    ((runPipeline ["coding", "unknown_xyz"] (fun _ => []) (fun _ => none)).map
      Prod.fst).count "coding" = 1 ∧
    ("unknown_xyz", ([] : List Article)) ∈
      runPipeline ["coding", "unknown_xyz"] (fun _ => []) (fun _ => none) := by
  have h := run_shape ["coding", "unknown_xyz"] (fun _ => []) (fun _ => none)
  exact ⟨by decide, h.1, h.2.1 (by decide) "coding" (by decide),
    h.2.2 "unknown_xyz" (by decide) rfl⟩

/-! ## Content Cache, sequential view (spec section 4.3) -/

/-- Association-list lookup over stored scrape results. -/
def lookupCache (cache : List (String × ScrapedContent)) (link : String) :
    Option ScrapedContent :=
  match cache with
  | [] => none
  | (k, v) :: rest => if k = link then some v else lookupCache rest link

/-- Modelled from the spec: `getOrScrape(link, scrapeFn)` in its sequential
reading (spec section 4.3); the cache in `main.py` is missing from the tree.
Returns the result, the updated cache, and the number of `scrapeFn`
invocations performed: a hit returns the stored value with zero invocations;
a miss invokes `scrapeFn` exactly once, storing the result only on success. -/
def getOrScrape (cache : List (String × ScrapedContent)) (link : String)
    (scrapeFn : String → Option ScrapedContent) :
    Option ScrapedContent × List (String × ScrapedContent) × Nat :=
  match lookupCache cache link with
  | some c => (some c, cache, 0)
  | none =>
    match scrapeFn link with
    | some c => (some c, (link, c) :: cache, 1)
    | none => (none, cache, 1)

/-- Claim C3: a cache hit returns the stored content with zero `scrapeFn`
invocations and an unchanged cache; a miss invokes `scrapeFn` exactly once;
and a failed scrape writes nothing — the cache is unchanged, so a later
request for the same link invokes its scrape function again. -/
theorem getOrScrape_spec (cache : List (String × ScrapedContent))
    (link : String) (scrapeFn : String → Option ScrapedContent) :
    (∀ c, lookupCache cache link = some c →
      getOrScrape cache link scrapeFn = (some c, cache, 0)) ∧
    (lookupCache cache link = none →
      (getOrScrape cache link scrapeFn).2.2 = 1) ∧
    (lookupCache cache link = none → scrapeFn link = none →
      (getOrScrape cache link scrapeFn).2.1 = cache ∧
      (∀ laterFn : String → Option ScrapedContent,
        (getOrScrape (getOrScrape cache link scrapeFn).2.1 link laterFn).2.2 = 1)) := by
  refine ⟨?_, ?_, ?_⟩
  · intro c hc
    unfold getOrScrape
    rw [hc]
  · intro hm
    unfold getOrScrape
    rw [hm]
    cases scrapeFn link <;> rfl
  · intro hm hf
    have hres : getOrScrape cache link scrapeFn = (none, cache, 1) := by
      unfold getOrScrape
      rw [hm, hf]
    constructor
    · rw [hres]
    · intro laterFn
      rw [hres]
      unfold getOrScrape
      rw [hm]
      cases laterFn link <;> rfl

theorem getOrScrape_spec_witness :
    lookupCache [("M", mkScraped "stored" none)] "L" = none ∧
    (getOrScrape [("M", mkScraped "stored" none)] "L" (fun _ => none)).2.1 =
      [("M", mkScraped "stored" none)] ∧
    getOrScrape [("M", mkScraped "stored" none)] "M" (fun _ => none) =
      (some (mkScraped "stored" none), [("M", mkScraped "stored" none)], 0) := by
  have h := getOrScrape_spec [("M", mkScraped "stored" none)] "L" (fun _ => none)
  refine ⟨by decide, (h.2.2 (by decide) rfl).1, ?_⟩
  exact (getOrScrape_spec [("M", mkScraped "stored" none)] "M"
    (fun _ => none)).1 (mkScraped "stored" none) (by decide)

/-! ## Content Cache, concurrent view (spec sections 4.3 and 5)

The process-wide cache is the only shared mutable state.  Its concurrent
behaviour is modelled as a state machine over interleaved events: a
`request` is one pipeline branch entering `getOrScrape` for a link, and a
`complete` is the in-flight scrape for a link finishing (successfully or
not).  A link's cache slot is either absent, `pending` with the list of
requesters awaiting the in-flight scrape, or `stored`. -/

/-- Modelled from the spec: one cache slot — an in-flight scrape with its
waiting requesters, or an immutable stored result (spec sections 4.3, 5). -/
inductive CacheEntry
  | pending (waiters : List Nat)
  | stored (c : ScrapedContent)
deriving DecidableEq, Repr

/-- An interleaving event at the cache: a pipeline branch `rid` requesting a
link, or the in-flight scrape of a link completing with an optional result. -/
inductive CacheEv
  | request (rid : Nat) (link : String)
  | complete (link : String) (res : Option ScrapedContent)
deriving DecidableEq, Repr

/-- The cache machine state: the per-link slots, the log of underlying
scrapes started, the log of successful scrapes stored, and the results
delivered to requesters. -/
structure CacheSt where
  entries : String → Option CacheEntry
  scrapeLog : List String
  successLog : List String
  delivered : List (Nat × Option ScrapedContent)

/-- Pointwise update of the slot map. -/
def updEntries (f : String → Option CacheEntry) (l : String)
    (v : Option CacheEntry) : String → Option CacheEntry :=
  fun k => if k = l then v else f k

/-- Modelled from the spec: one step of the concurrent cache (spec section
4.3).  A request on a stored slot is a hit served at once; on a pending slot
the requester joins the waiters of the in-flight scrape; on an absent slot it
starts the one underlying scrape.  A successful completion stores the result
immutably and delivers it to every waiter; a failed completion clears the
slot (failures are not cached) and delivers the failure. -/
def cacheStep (s : CacheSt) (e : CacheEv) : CacheSt :=
  match e with
  | .request rid l =>
    match s.entries l with
    | some (.stored c) => { s with delivered := s.delivered ++ [(rid, some c)] }
    | some (.pending ws) =>
      { s with entries := updEntries s.entries l (some (.pending (ws ++ [rid]))) }
    | none =>
      { s with entries := updEntries s.entries l (some (.pending [rid])),
               scrapeLog := s.scrapeLog ++ [l] }
  | .complete l res =>
    match s.entries l with
    | some (.pending ws) =>
      match res with
      | some c =>
        { s with entries := updEntries s.entries l (some (.stored c)),
                 successLog := s.successLog ++ [l],
                 delivered := s.delivered ++ ws.map (fun r => (r, some c)) }
      | none =>
        { s with entries := updEntries s.entries l none,
                 delivered := s.delivered ++ ws.map (fun r => (r, none)) }
    | _ => s

/-- The empty cache at process start. -/
def initCache : CacheSt :=
  { entries := fun _ => none, scrapeLog := [], successLog := [], delivered := [] }

/-- Run the cache machine over an interleaving of events. -/
def runCache (t : List CacheEv) : CacheSt :=
  t.foldl cacheStep initCache

theorem updEntries_same (f : String → Option CacheEntry) (l : String)
    (v : Option CacheEntry) : updEntries f l v l = v := by
  simp [updEntries]

theorem updEntries_other (f : String → Option CacheEntry) {l k : String}
    (v : Option CacheEntry) (h : k ≠ l) : updEntries f l v k = f k := by
  simp [updEntries, h]

theorem count_append_single_ne (xs : List String) {l l' : String}
    (h : l ≠ l') : (xs ++ [l']).count l = xs.count l := by
  rw [List.count_append]
  have h0 : ([l'] : List String).count l = 0 := by
    rw [List.count_eq_zero]
    simp [h]
  rw [h0]
  omega

theorem requests_on_pending (l : String) (rids : List Nat) :
    ∀ (s : CacheSt) (ws : List Nat), s.entries l = some (.pending ws) →
    ((rids.map (fun r => CacheEv.request r l)).foldl cacheStep s).entries l
        = some (.pending (ws ++ rids)) ∧
    ((rids.map (fun r => CacheEv.request r l)).foldl cacheStep s).scrapeLog
        = s.scrapeLog ∧
    ((rids.map (fun r => CacheEv.request r l)).foldl cacheStep s).delivered
        = s.delivered := by
  induction rids with
  | nil =>
    intro s ws h
    simp only [List.map_nil, List.foldl_nil, List.append_nil]
    exact ⟨h, trivial, trivial⟩
  | cons r rs ih =>
    intro s ws h
    simp only [List.map_cons, List.foldl_cons]
    have hstep : cacheStep s (.request r l) =
        { s with entries := updEntries s.entries l (some (.pending (ws ++ [r]))) } := by
      simp [cacheStep, h]
    rw [hstep]
    obtain ⟨h1, h2, h3⟩ := ih
      ({ s with entries := updEntries s.entries l (some (.pending (ws ++ [r]))) })
      (ws ++ [r]) (updEntries_same _ _ _)
    refine ⟨?_, h2, h3⟩
    rw [h1]
    simp

/-- Claim C2: when several pipeline branches concurrently request
`getOrScrape` for the same link while no cache entry exists, exactly one
underlying scrape is started (the scrape log grows by exactly one entry for
that link), and when that single in-flight scrape completes, every
concurrent requester is delivered that same first result rather than
scraping again. -/
theorem single_flight (s : CacheSt) (l : String) (rids : List Nat)
    (res : Option ScrapedContent)
    (hnone : s.entries l = none) (hne : rids ≠ []) :
    ((rids.map (fun r => CacheEv.request r l)).foldl cacheStep s).scrapeLog.count l
        = s.scrapeLog.count l + 1 ∧
    (cacheStep ((rids.map (fun r => CacheEv.request r l)).foldl cacheStep s)
        (.complete l res)).delivered
      = ((rids.map (fun r => CacheEv.request r l)).foldl cacheStep s).delivered
          ++ rids.map (fun r => (r, res)) := by
  obtain ⟨r, rs, rfl⟩ := List.exists_cons_of_ne_nil hne
  have hstep1 : cacheStep s (.request r l) =
      { s with entries := updEntries s.entries l (some (.pending [r])),
               scrapeLog := s.scrapeLog ++ [l] } := by
    simp [cacheStep, hnone]
  simp only [List.map_cons, List.foldl_cons]
  rw [hstep1]
  obtain ⟨h1, h2, h3⟩ := requests_on_pending l rs
    ({ s with entries := updEntries s.entries l (some (.pending [r])),
              scrapeLog := s.scrapeLog ++ [l] })
    [r] (updEntries_same _ _ _)
  constructor
  · rw [h2]
    simp [List.count_append]
  · have hsp : ([r] : List Nat) ++ rs = r :: rs := rfl
    rw [hsp] at h1
    cases res with
    | some c => simp [cacheStep, h1]
    | none => simp [cacheStep, h1]

theorem single_flight_witness :
    initCache.entries "L" = none ∧
    (([0, 1].map (fun r => CacheEv.request r "L")).foldl cacheStep
        initCache).scrapeLog.count "L" = initCache.scrapeLog.count "L" + 1 ∧
    (cacheStep (([0, 1].map (fun r => CacheEv.request r "L")).foldl cacheStep
        initCache) (.complete "L" (some (mkScraped "body" none)))).delivered
      = (([0, 1].map (fun r => CacheEv.request r "L")).foldl cacheStep
          initCache).delivered
          ++ [0, 1].map (fun r => (r, some (mkScraped "body" none))) :=
  ⟨rfl, single_flight initCache "L" [0, 1] (some (mkScraped "body" none))
    rfl (by decide)⟩

/-! ## Cache write-once invariant (claim C4) -/

/-- The cache invariant tying successful scrapes to stored entries: every
link has at most one successful scrape, and has exactly one iff its slot
holds a stored result. -/
def CacheInv (s : CacheSt) : Prop :=
  ∀ l, s.successLog.count l ≤ 1 ∧
    ((∃ c, s.entries l = some (.stored c)) ↔ s.successLog.count l = 1)

theorem initCache_inv : CacheInv initCache := by
  intro l
  refine ⟨by simp [initCache], ?_⟩
  constructor
  · rintro ⟨c, hc⟩
    simp [initCache] at hc
  · intro h
    simp [initCache] at h

theorem cacheStep_inv {s : CacheSt} (hs : CacheInv s) (e : CacheEv) :
    CacheInv (cacheStep s e) := by
  intro l
  obtain ⟨hle, hiff⟩ := hs l
  cases e with
  | request rid l' =>
    cases hl' : s.entries l' with
    | none =>
      simp only [cacheStep, hl']
      by_cases hkl : l = l'
      · subst hkl
        refine ⟨hle, ?_⟩
        rw [updEntries_same]
        constructor
        · rintro ⟨c, hc⟩
          simp at hc
        · intro h1
          obtain ⟨c, hc⟩ := hiff.mpr h1
          rw [hl'] at hc
          simp at hc
      · rw [updEntries_other _ _ hkl]
        exact ⟨hle, hiff⟩
    | some entry =>
      cases entry with
      | stored c => simpa [cacheStep, hl'] using ⟨hle, hiff⟩
      | pending ws =>
        simp only [cacheStep, hl']
        by_cases hkl : l = l'
        · subst hkl
          refine ⟨hle, ?_⟩
          rw [updEntries_same]
          constructor
          · rintro ⟨c, hc⟩
            simp at hc
          · intro h1
            obtain ⟨c, hc⟩ := hiff.mpr h1
            rw [hl'] at hc
            simp at hc
        · rw [updEntries_other _ _ hkl]
          exact ⟨hle, hiff⟩
  | complete l' res =>
    cases hl' : s.entries l' with
    | none => simpa [cacheStep, hl'] using ⟨hle, hiff⟩
    | some entry =>
      cases entry with
      | stored c => simpa [cacheStep, hl'] using ⟨hle, hiff⟩
      | pending ws =>
        have hcount0 : s.successLog.count l' = 0 := by
          rcases Nat.lt_or_ge (s.successLog.count l') 1 with h1 | h1
          · omega
          · have h2 : s.successLog.count l' = 1 := by
              have := (hs l').1
              omega
            obtain ⟨c, hc⟩ := (hs l').2.mpr h2
            rw [hl'] at hc
            simp at hc
        cases res with
        | some c =>
          simp only [cacheStep, hl']
          by_cases hkl : l = l'
          · subst hkl
            rw [updEntries_same]
            refine ⟨?_, ?_⟩
            · rw [List.count_append]
              simp [hcount0]
            · rw [List.count_append]
              simp [hcount0]
          · rw [updEntries_other _ _ hkl]
            rw [count_append_single_ne _ hkl]
            exact ⟨hle, hiff⟩
        | none =>
          simp only [cacheStep, hl']
          by_cases hkl : l = l'
          · subst hkl
            refine ⟨hle, ?_⟩
            rw [updEntries_same]
            constructor
            · rintro ⟨c, hc⟩
              simp at hc
            · intro h1
              obtain ⟨c, hc⟩ := hiff.mpr h1
              rw [hl'] at hc
              simp at hc
          · rw [updEntries_other _ _ hkl]
            exact ⟨hle, hiff⟩

theorem foldl_cache_inv (t : List CacheEv) :
    ∀ s : CacheSt, CacheInv s → CacheInv (t.foldl cacheStep s) := by
  induction t with
  | nil => intro s hs; exact hs
  | cons e rest ih =>
    intro s hs
    exact ih _ (cacheStep_inv hs e)

theorem runCache_inv (t : List CacheEv) : CacheInv (runCache t) :=
  foldl_cache_inv t initCache initCache_inv

theorem cacheStep_stored {s : CacheSt} {l : String} {c : ScrapedContent}
    (h : s.entries l = some (.stored c)) (e : CacheEv) :
    (cacheStep s e).entries l = some (.stored c) ∧
    (cacheStep s e).scrapeLog.count l = s.scrapeLog.count l := by
  cases e with
  | request rid l' =>
    cases hl' : s.entries l' with
    | none =>
      have hkl : l ≠ l' := by
        intro hcontra
        rw [hcontra, hl'] at h
        simp at h
      constructor
      · simp only [cacheStep, hl']
        rw [updEntries_other _ _ hkl]
        exact h
      · simp only [cacheStep, hl']
        exact count_append_single_ne _ hkl
    | some entry =>
      cases entry with
      | stored c' =>
        constructor
        · simp only [cacheStep, hl']
          exact h
        · simp only [cacheStep, hl']
      | pending ws =>
        have hkl : l ≠ l' := by
          intro hcontra
          rw [hcontra, hl'] at h
          simp at h
        constructor
        · simp only [cacheStep, hl']
          rw [updEntries_other _ _ hkl]
          exact h
        · simp only [cacheStep, hl']
  | complete l' res =>
    cases hl' : s.entries l' with
    | none =>
      constructor
      · simp only [cacheStep, hl']
        exact h
      · simp only [cacheStep, hl']
    | some entry =>
      cases entry with
      | stored c' =>
        constructor
        · simp only [cacheStep, hl']
          exact h
        · simp only [cacheStep, hl']
      | pending ws =>
        have hkl : l ≠ l' := by
          intro hcontra
          rw [hcontra, hl'] at h
          simp at h
        cases res with
        | some c'' =>
          constructor
          · simp only [cacheStep, hl']
            rw [updEntries_other _ _ hkl]
            exact h
          · simp only [cacheStep, hl']
        | none =>
          constructor
          · simp only [cacheStep, hl']
            rw [updEntries_other _ _ hkl]
            exact h
          · simp only [cacheStep, hl']

theorem foldl_stored (t' : List CacheEv) :
    ∀ {s : CacheSt} {l : String} {c : ScrapedContent},
    s.entries l = some (.stored c) →
    ((t'.foldl cacheStep s).entries l = some (.stored c) ∧
     (t'.foldl cacheStep s).scrapeLog.count l = s.scrapeLog.count l) := by
  induction t' with
  | nil => intro s l c h; exact ⟨h, rfl⟩
  | cons e rest ih =>
    intro s l c h
    obtain ⟨h1, h2⟩ := cacheStep_stored h e
    obtain ⟨h3, h4⟩ := ih h1
    refine ⟨h3, ?_⟩
    rw [List.foldl_cons, h4, h2]

/-- Claim C4: over any interleaving of cache events in one process
lifetime, each link sees at most one successful scrape; once a stored entry
for a link is written it is never invalidated or overwritten under any
further events; no further underlying scrape for that link is ever started;
and every subsequent request for the link is delivered exactly the stored
content. -/
theorem cache_write_once (t t' : List CacheEv) (l : String)
    (c : ScrapedContent) (h : (runCache t).entries l = some (.stored c)) :
    (runCache (t ++ t')).successLog.count l ≤ 1 ∧
    (runCache (t ++ t')).entries l = some (.stored c) ∧
    (runCache (t ++ t')).scrapeLog.count l = (runCache t).scrapeLog.count l ∧
    (∀ rid, (cacheStep (runCache (t ++ t')) (.request rid l)).delivered =
      (runCache (t ++ t')).delivered ++ [(rid, some c)]) := by
  have happ : runCache (t ++ t') = t'.foldl cacheStep (runCache t) := by
    unfold runCache
    rw [List.foldl_append]
  obtain ⟨h1, h2⟩ := foldl_stored t' h
  refine ⟨(runCache_inv (t ++ t') l).1, by rw [happ]; exact h1,
    by rw [happ]; exact h2, ?_⟩
  intro rid
  rw [happ]
  simp [cacheStep, h1]

theorem cache_write_once_witness :
    (runCache [CacheEv.request 0 "L",
      CacheEv.complete "L" (some (mkScraped "body" none))]).entries "L"
        = some (.stored (mkScraped "body" none)) ∧
    (runCache ([CacheEv.request 0 "L",
        CacheEv.complete "L" (some (mkScraped "body" none))]
      ++ [CacheEv.request 1 "L"])).successLog.count "L" ≤ 1 ∧
    (runCache ([CacheEv.request 0 "L",
        CacheEv.complete "L" (some (mkScraped "body" none))]
      ++ [CacheEv.request 1 "L"])).entries "L"
        = some (.stored (mkScraped "body" none)) ∧
    (runCache ([CacheEv.request 0 "L",
        CacheEv.complete "L" (some (mkScraped "body" none))]
      ++ [CacheEv.request 1 "L"])).scrapeLog.count "L"
      = (runCache [CacheEv.request 0 "L",
          CacheEv.complete "L" (some (mkScraped "body" none))]).scrapeLog.count "L" := by
  have h := cache_write_once
    [CacheEv.request 0 "L", CacheEv.complete "L" (some (mkScraped "body" none))]
    [CacheEv.request 1 "L"] "L" (mkScraped "body" none) rfl
  exact ⟨rfl, h.1, h.2.1, h.2.2.1⟩

/-! ## Frontend feed renderer (`frontend/feed.js`, `displayFeed`) -/

/-- The DOM output of rendering one article inside a section of
`displayFeed` (`frontend/feed.js` lines 105-149): title link, source text,
optional date text, optional truncated content text, optional image. -/
structure RenderedArticle where
  titleText : String
  linkHref : String
  sourceText : String
  dateText : Option String
  contentText : Option String
  imageSrc : Option String
deriving DecidableEq, Repr

/-- JavaScript truthiness for an optional string field: absent and empty
strings are falsy (`if (article.content)` etc. in `feed.js`). -/
def strTruthy : Option String → Bool
  | none => false
  | some s => !(s == "")

/-- One node appended to `newsContainer` by `displayFeed`: either a
per-interest section or the single "No new articles" empty state. -/
inductive RenderedNode
  | sectionNode (heading : String) (articles : List RenderedArticle)
  | emptyState
deriving DecidableEq, Repr

/-- Rendering of one article by `displayFeed` (`feed.js` lines 105-149):
the content, when truthy, is shown as `content.substring(0, 300) + '...'` —
the first 300 characters followed by the literal dots, unconditionally. -/
def renderArticle (a : Article) : RenderedArticle :=
  { titleText := a.title
  , linkHref := a.link
  , sourceText := "📰 " ++ a.source
  , dateText := if strTruthy a.date then some ("📅 " ++ a.date.getD "") else none
  , contentText :=
      if strTruthy a.content then some ((a.content.getD "").take 300 ++ "...")
      else none
  , imageSrc := if strTruthy a.image then a.image else none }

/-- The per-interest sections built by `displayFeed`'s loop (`feed.js`
lines 94-153): an interest with an empty article list is skipped
(`continue`), a non-empty one becomes a section headed by the uppercased
interest. -/
def feedSections (newsByInterest : List (String × List Article)) :
    List RenderedNode :=
  (newsByInterest.filter (fun p => !p.2.isEmpty)).map
    (fun p => RenderedNode.sectionNode ("📌 " ++ toUpperStr p.1)
      (p.2.map renderArticle))

/-- `displayFeed`'s news output (`feed.js` lines 92-163): the sections for
the non-empty interests, or the single empty-state node when no interest
had articles (`hasArticles` stays false). -/
def displayFeed (newsByInterest : List (String × List Article)) :
    List RenderedNode :=
  if (feedSections newsByInterest).isEmpty then [RenderedNode.emptyState]
  else feedSections newsByInterest

theorem string_append_left_cancel {a b c : String} (h : a ++ b = a ++ c) :
    b = c := by
  have hd : a.data ++ b.data = a.data ++ c.data := by
    rw [← String.data_append, ← String.data_append, h]
  have hbc : b.data = c.data := List.append_cancel_left hd
  cases b
  cases c
  exact congrArg String.mk (by simpa using hbc)

/-- Claim C9: an interest whose article list is empty produces no section in
the rendered output — its key is silently skipped — and when every
interest's list is empty a single "No new articles" empty-state node is
rendered instead; a non-empty interest always gets its section. -/
theorem displayFeed_spec (news : List (String × List Article))
    (p : String × List Article) :
    ((∀ q ∈ news, q.2 = []) → displayFeed news = [RenderedNode.emptyState]) ∧
    (p ∈ news → p.2 ≠ [] →
      RenderedNode.sectionNode ("📌 " ++ toUpperStr p.1) (p.2.map renderArticle)
        ∈ displayFeed news) ∧
    (p ∈ news → p.2 = [] →
      (news.map (fun q => toUpperStr q.1)).Nodup →
      ∀ arts, RenderedNode.sectionNode ("📌 " ++ toUpperStr p.1) arts
        ∉ displayFeed news) := by
  refine ⟨?_, ?_, ?_⟩
  · intro hall
    have hfilter : news.filter (fun p => !p.2.isEmpty) = [] := by
      rw [List.filter_eq_nil_iff]
      intro q hq
      rw [hall q hq]
      simp
    unfold displayFeed feedSections
    rw [hfilter]
    simp
  · intro hp hne
    have hmem : RenderedNode.sectionNode ("📌 " ++ toUpperStr p.1)
        (p.2.map renderArticle) ∈ feedSections news := by
      unfold feedSections
      exact List.mem_map.mpr
        ⟨p, List.mem_filter.mpr ⟨hp, by simp [hne]⟩, rfl⟩
    have hnonempty : (feedSections news).isEmpty = false := by
      cases hh : (feedSections news).isEmpty
      · rfl
      · rw [List.isEmpty_iff] at hh
        rw [hh] at hmem
        simp at hmem
    unfold displayFeed
    rw [hnonempty]
    simpa using hmem
  · intro hp hpe hnd arts hmem
    unfold displayFeed at hmem
    by_cases hh : (feedSections news).isEmpty
    · rw [if_pos hh] at hmem
      simp at hmem
    · rw [if_neg hh] at hmem
      unfold feedSections at hmem
      obtain ⟨q, hq, heq⟩ := List.mem_map.mp hmem
      have hqf := List.mem_filter.mp hq
      have hheads : "📌 " ++ toUpperStr q.1 = "📌 " ++ toUpperStr p.1 := by
        injection heq
      have hup : toUpperStr q.1 = toUpperStr p.1 :=
        string_append_left_cancel hheads
      have hqp : q = p :=
        List.inj_on_of_nodup_map hnd hqf.1 hp hup
      rw [hqp, hpe] at hqf
      simp at hqf

/-- Sample article used to exercise the renderer. -/
def articleB : Article :=
  { title := "B-title", link := "M", source := "srcB"
  , date := some "2024-01-01", content := some "short content", image := none }

theorem displayFeed_spec_witness :
    displayFeed [("a", ([] : List Article)), ("c", [])]
        = [RenderedNode.emptyState] ∧
    RenderedNode.sectionNode ("📌 " ++ toUpperStr "b") ([articleB].map renderArticle)
        ∈ displayFeed [("a", []), ("b", [articleB])] ∧
    RenderedNode.sectionNode ("📌 " ++ toUpperStr "a") []
        ∉ displayFeed [("a", []), ("b", [articleB])] :=
  ⟨(displayFeed_spec [("a", []), ("c", [])] ("a", [])).1 (by decide),
   (displayFeed_spec [("a", []), ("b", [articleB])] ("b", [articleB])).2.1
     (by decide) (by decide),
   (displayFeed_spec [("a", []), ("b", [articleB])] ("a", [])).2.2
     (by decide) rfl (by decide) []⟩

/-- Claim C10: for an article with truthy (non-empty) content, the rendered
content text is exactly the first 300 characters of the content followed by
the literal "..." — the suffix is appended even when the content has 300
characters or fewer, in which case the whole content is shown; the displayed
prefix never exceeds 300 characters, tightening the backend's 2000-character
cap to 300 in the view. -/
theorem displayed_content_spec (a : Article) (c : String)
    (hc : a.content = some c) (hne : c ≠ "") :
    (renderArticle a).contentText = some (c.take 300 ++ "...") ∧
    (c.take 300).data = c.data.take 300 ∧
    (c.take 300).length = min 300 c.length ∧
    (c.length ≤ 300 → (renderArticle a).contentText = some (c ++ "...")) := by
  have htruthy : strTruthy a.content = true := by
    rw [hc]
    unfold strTruthy
    simp [hne]
  have hct : (renderArticle a).contentText = some (c.take 300 ++ "...") := by
    unfold renderArticle
    rw [if_pos htruthy, hc]
    rfl
  refine ⟨hct, by simp [String.take_eq], ?_, ?_⟩
  · rw [String.take_eq]
    show (c.data.take 300).length = min 300 c.length
    rw [List.length_take]
    rfl
  · intro hle
    have hfull : c.take 300 = c := by
      rw [String.take_eq,
        List.take_of_length_le (show c.data.length ≤ 300 from hle)]
    rw [hct, hfull]

theorem displayed_content_spec_witness :
    articleB.content = some "short content" ∧
    (renderArticle articleB).contentText = some ("short content".take 300 ++ "...") ∧
    (renderArticle articleB).contentText = some ("short content" ++ "...") := by
  have h := displayed_content_spec articleB "short content" rfl (by decide)
  exact ⟨rfl, h.1, h.2.2.2 (by decide)⟩

end NewsEnhancer
